import Mathlib

/-!
Verification of the crossword generation engine of `src/puzzle.py`
(class `CrosswordPuzzle`): grid data model, the placement validator
`_can_place_word`, the mutator `_place_word`, and the search driver
`generate_puzzle`.  Randomness (`random.choice`, `random.randint`,
`random.shuffle`) is modelled by an oracle (`Rng`): a stream of natural
numbers consumed by the bounded trial loops, and a shuffle function.
All theorems quantify over every oracle, hence over every behaviour of
the Python program.
-/

/-- The grid is a list of rows of characters; the empty-cell marker is the
character used by the source, a hash mark. -/
abbrev Grid := List (List Char)

/-- Read `grid[y][x]`; out-of-range reads yield the empty marker (all reads
performed by the source are guarded to be in range). -/
def getCell (g : Grid) (y x : Nat) : Char := (g.getD y []).getD x '#'

/-- Write `grid[y][x] = c` (a no-op out of range; all writes performed by the
source are in range). -/
def setCell (g : Grid) (y x : Nat) (c : Char) : Grid :=
  g.set y ((g.getD y []).set x c)

/-- Model of `[['#' for _ in range(width)] for _ in range(height)]`. -/
def mkGrid (width height : Nat) : Grid :=
  List.replicate height (List.replicate width '#')

/-- An entry of `placed_words`: `{'word': .., 'start_x': .., 'start_y': ..,
'direction': ..}`. -/
structure PlacedWord where
  word : List Char
  start_x : Nat
  start_y : Nat
  direction : String
deriving DecidableEq

instance : Inhabited PlacedWord := ⟨⟨[], 0, 0, ""⟩⟩

/-- The state of a `CrosswordPuzzle` object. -/
structure Puzzle where
  width : Nat
  height : Nat
  grid : Grid
  words : List (List Char)
  placed_words : List PlacedWord
deriving DecidableEq

/-- Model of `CrosswordPuzzle.__init__`. -/
def mkPuzzle (width height : Nat) : Puzzle :=
  { width := width, height := height, grid := mkGrid width height,
    words := [], placed_words := [] }

/-- The input-time fit check of `add_word`:
`len(word_upper) <= self.width or len(word_upper) <= self.height`. -/
def wordFits (p : Puzzle) (wu : List Char) : Bool :=
  wu.length ≤ p.width || wu.length ≤ p.height

/-- Model of `CrosswordPuzzle.add_word`: uppercase the word, append it to `words` when
the fit check passes, otherwise only report (no state change, no raise). -/
def addWord (p : Puzzle) (word : String) : Puzzle :=
  let wu := word.toUpper.data
  if wordFits p wu then { p with words := p.words ++ [wu] } else p

/-- The per-cell loop of `_can_place_word` for `direction == 'horizontal'`:
walks the word left to right from `(x, y)`, returning `none` on any rejection
and `some n` with the intersection count on success. -/
def scanH (p : Puzzle) : List Char → Nat → Nat → Option Nat
  | [], _, _ => some 0
  | c :: rest, x, y =>
    if x < p.width ∧ y < p.height then
      if getCell p.grid y x ≠ '#' then
        if getCell p.grid y x = c then (scanH p rest (x + 1) y).map (· + 1)
        else none
      else
        if 0 < y ∧ getCell p.grid (y - 1) x ≠ '#' then none
        else if y < p.height - 1 ∧ getCell p.grid (y + 1) x ≠ '#' then none
        else scanH p rest (x + 1) y
    else none

/-- The per-cell loop of `_can_place_word` for `direction == 'vertical'`. -/
def scanV (p : Puzzle) : List Char → Nat → Nat → Option Nat
  | [], _, _ => some 0
  | c :: rest, x, y =>
    if x < p.width ∧ y < p.height then
      if getCell p.grid y x ≠ '#' then
        if getCell p.grid y x = c then (scanV p rest x (y + 1)).map (· + 1)
        else none
      else
        if 0 < x ∧ getCell p.grid y (x - 1) ≠ '#' then none
        else if x < p.width - 1 ∧ getCell p.grid y (x + 1) ≠ '#' then none
        else scanV p rest x (y + 1)
    else none

/-- The final connectivity gate of `_can_place_word`: the first word may have
zero intersections, any later word must have at least one. -/
def connectOK (p : Puzzle) (cnt : Nat) : Bool :=
  p.placed_words.isEmpty || cnt != 0

/-- Model of `CrosswordPuzzle._can_place_word`.  Start coordinates are integers (the
caller may propose negative ones); a direction string other than
`'horizontal'` and `'vertical'` selects no branch, exactly as in the source,
and falls through to the connectivity gate with a zero count. -/
def canPlaceWord (p : Puzzle) (word : List Char) (start_x start_y : Int)
    (direction : String) : Bool :=
  if start_x < 0 ∨ start_y < 0 then false
  else if direction = "horizontal" then
    if p.width < start_x.toNat + word.length then false
    else
      match scanH p word start_x.toNat start_y.toNat with
      | none => false
      | some cnt =>
        if 0 < start_x.toNat ∧
            getCell p.grid start_y.toNat (start_x.toNat - 1) ≠ '#' then false
        else if start_x.toNat + word.length < p.width ∧
            getCell p.grid start_y.toNat (start_x.toNat + word.length) ≠ '#' then
          false
        else connectOK p cnt
  else if direction = "vertical" then
    if p.height < start_y.toNat + word.length then false
    else
      match scanV p word start_x.toNat start_y.toNat with
      | none => false
      | some cnt =>
        if 0 < start_y.toNat ∧
            getCell p.grid (start_y.toNat - 1) start_x.toNat ≠ '#' then false
        else if start_y.toNat + word.length < p.height ∧
            getCell p.grid (start_y.toNat + word.length) start_x.toNat ≠ '#' then
          false
        else connectOK p cnt
  else connectOK p 0

/-- The horizontal write loop of `_place_word`. -/
def writeH : Grid → List Char → Nat → Nat → Grid
  | g, [], _, _ => g
  | g, c :: rest, x, y => writeH (setCell g y x c) rest (x + 1) y

/-- The vertical write loop of `_place_word`. -/
def writeV : Grid → List Char → Nat → Nat → Grid
  | g, [], _, _ => g
  | g, c :: rest, x, y => writeV (setCell g y x c) rest x (y + 1)

/-- Model of `CrosswordPuzzle._place_word`: write the letters along the span (for the
two real directions) and append the record to `placed_words`. -/
def placeWord (p : Puzzle) (word : List Char) (sx sy : Nat)
    (direction : String) : Puzzle :=
  { p with
    grid :=
      if direction = "horizontal" then writeH p.grid word sx sy
      else if direction = "vertical" then writeV p.grid word sx sy
      else p.grid,
    placed_words := p.placed_words ++ [⟨word, sx, sy, direction⟩] }

/-- The `possible_directions` list built at the top of the per-word loop of
`generate_puzzle`. -/
def possibleDirections (p : Puzzle) (word : List Char) : List String :=
  (if word.length ≤ p.width then ["horizontal"] else []) ++
    (if word.length ≤ p.height then ["vertical"] else [])

/-- An element of `possible_placements`: `(word, start_x, start_y, direction)`. -/
abbrev Candidate := List Char × Int × Int × String

/-- The body of the innermost candidate loop of `generate_puzzle`: for one
pair of character indices, the candidate placement it contributes (empty or a
singleton).  Mirrors the `if char_new == char_old` / direction `elif` chain
and the nonnegativity pre-filter followed by the validator call. -/
def pairCandidate (p : Puzzle) (word : List Char) (dirs : List String)
    (pw : PlacedWord) (ciNew ciOld : Nat) : List Candidate :=
  if word.getD ciNew ' ' = pw.word.getD ciOld ' ' then
    if pw.direction = "horizontal" ∧ "vertical" ∈ dirs then
      let px : Int := (pw.start_x : Int) + ciOld
      let py : Int := (pw.start_y : Int) - ciNew
      if 0 ≤ px ∧ 0 ≤ py ∧ canPlaceWord p word px py "vertical" then
        [(word, px, py, "vertical")]
      else []
    else if pw.direction = "vertical" ∧ "horizontal" ∈ dirs then
      let px : Int := (pw.start_x : Int) - ciNew
      let py : Int := (pw.start_y : Int) + ciOld
      if 0 ≤ px ∧ 0 ≤ py ∧ canPlaceWord p word px py "horizontal" then
        [(word, px, py, "horizontal")]
      else []
    else []
  else []

/-- Candidates contributed by one already placed word. -/
def candidatesFor (p : Puzzle) (word : List Char) (dirs : List String)
    (pw : PlacedWord) : List Candidate :=
  (List.range word.length).flatMap fun ciNew =>
    (List.range pw.word.length).flatMap (pairCandidate p word dirs pw ciNew)

/-- The full `possible_placements` list of `generate_puzzle`. -/
def intersectionCandidates (p : Puzzle) (word : List Char)
    (dirs : List String) : List Candidate :=
  p.placed_words.flatMap (candidatesFor p word dirs)

/-- The commit loop over the shuffled candidate list: re-validate each
candidate against the current grid and place the first accepted one. -/
def tryPlacements (p : Puzzle) : List Candidate → Option Puzzle
  | [] => none
  | (w, sx, sy, d) :: rest =>
    if canPlaceWord p w sx sy d then
      some (placeWord p w sx.toNat sy.toNat d)
    else tryPlacements p rest

/-- The bounded random trial loop of `generate_puzzle` (used both for the
first word and as the fallback).  `r` is the random stream, `k` the index of
the next draw; returns the first accepted `(start_x, start_y, direction)`
triple (if any), the next stream index, and the number of loop iterations
executed. -/
def randTrials (p : Puzzle) (word : List Char) (dirs : List String)
    (r : Nat → Nat) : Nat → Nat → Option (Int × Int × String) × Nat × Nat
  | 0, k => (none, k, 0)
  | fuel + 1, k =>
    let dir := dirs.getD (r k % dirs.length) ""
    if dir = "horizontal" then
      if (p.width : Int) - word.length < 0 then
        let t := randTrials p word dirs r fuel (k + 1)
        (t.1, t.2.1, t.2.2 + 1)
      else
        let sx : Int := ((r (k + 1)) % (((p.width : Int) - word.length).toNat + 1) : Nat)
        let sy : Int := ((r (k + 2)) % p.height : Nat)
        if canPlaceWord p word sx sy dir then (some (sx, sy, dir), k + 3, 1)
        else
          let t := randTrials p word dirs r fuel (k + 3)
          (t.1, t.2.1, t.2.2 + 1)
    else
      if (p.height : Int) - word.length < 0 then
        let t := randTrials p word dirs r fuel (k + 1)
        (t.1, t.2.1, t.2.2 + 1)
      else
        let sx : Int := ((r (k + 1)) % p.width : Nat)
        let sy : Int := ((r (k + 2)) % (((p.height : Int) - word.length).toNat + 1) : Nat)
        if canPlaceWord p word sx sy dir then (some (sx, sy, dir), k + 3, 1)
        else
          let t := randTrials p word dirs r fuel (k + 3)
          (t.1, t.2.1, t.2.2 + 1)

/-- The randomness oracle: a stream of naturals (draws of `random.choice` /
`random.randint`) and the permutation applied by `random.shuffle` to the
candidate list of the word at a given position. -/
structure Rng where
  stream : Nat → Nat
  shuffle : Nat → List Candidate → List Candidate

/-- A real shuffle only rearranges the list: its output elements come from
its input.  Every behaviour of `random.shuffle` satisfies this. -/
def ShuffleOK (rng : Rng) : Prop :=
  ∀ i l c, c ∈ rng.shuffle i l → c ∈ l

/-- The trial budget of the two random loops: `self.width * self.height * 50`. -/
def trialBudget (p : Puzzle) : Nat := p.width * p.height * 50

/-- The body of the per-word loop of `generate_puzzle`: compute the eligible
directions, skip when none; first word by random trials; later words by the
shuffled intersection-candidate pass and then the random fallback.  Returns
the new puzzle state and the next random-stream index. -/
def processWord (p : Puzzle) (word : List Char) (rng : Rng)
    (widx k : Nat) : Puzzle × Nat :=
  let dirs := possibleDirections p word
  if dirs.isEmpty then (p, k)
  else if p.placed_words.isEmpty then
    match randTrials p word dirs rng.stream (trialBudget p) k with
    | (some (sx, sy, d), kk, _) => (placeWord p word sx.toNat sy.toNat d, kk)
    | (none, kk, _) => (p, kk)
  else
    match tryPlacements p (rng.shuffle widx (intersectionCandidates p word dirs)) with
    | some q => (q, k)
    | none =>
      match randTrials p word dirs rng.stream (trialBudget p) k with
      | (some (sx, sy, d), kk, _) => (placeWord p word sx.toNat sy.toNat d, kk)
      | (none, kk, _) => (p, kk)

/-- The word loop of `generate_puzzle`. -/
def runWords (rng : Rng) : Puzzle → List (List Char) → Nat → Nat → Puzzle × Nat
  | p, [], _, k => (p, k)
  | p, w :: rest, widx, k =>
    let pk := processWord p w rng widx k
    runWords rng pk.1 rest (widx + 1) pk.2

/-- Stable insertion (descending length) used to model
`self.words.sort(key=len, reverse=True)`. -/
def insertDesc (w : List Char) : List (List Char) → List (List Char)
  | [] => [w]
  | v :: rest =>
    if v.length ≤ w.length then w :: v :: rest else v :: insertDesc w rest

/-- Stable sort by descending length (Python list sort with `key=len,
reverse=True`). -/
def sortWords : List (List Char) → List (List Char)
  | [] => []
  | w :: rest => insertDesc w (sortWords rest)

/-- Model of `CrosswordPuzzle.generate_puzzle`. -/
def generatePuzzle (p0 : Puzzle) (rng : Rng) : Puzzle :=
  let sorted := sortWords p0.words
  (runWords rng { p0 with words := sorted } sorted 0 0).1

/-- The puzzle state of `generate_puzzle` after its word loop has processed
the first `n` words (the intermediate states of the run). -/
def genStateAfter (p0 : Puzzle) (rng : Rng) (n : Nat) : Puzzle :=
  let sorted := sortWords p0.words
  (runWords rng { p0 with words := sorted } (sorted.take n) 0 0).1

/-- A `placed_words` entry covers the cell `(x, y)` (column, row): the span of
the word contains the cell. -/
def coversCell (pw : PlacedWord) (x y : Nat) : Prop :=
  (pw.direction = "horizontal" ∧ y = pw.start_y ∧ pw.start_x ≤ x ∧
      x < pw.start_x + pw.word.length) ∨
    (pw.direction = "vertical" ∧ x = pw.start_x ∧ pw.start_y ≤ y ∧
      y < pw.start_y + pw.word.length)

instance (pw : PlacedWord) (x y : Nat) : Decidable (coversCell pw x y) := by
  unfold coversCell; infer_instance

/-- The character a placed word implies for a cell of its span. -/
def charAt (pw : PlacedWord) (x y : Nat) : Char :=
  if pw.direction = "horizontal" then pw.word.getD (x - pw.start_x) '#'
  else pw.word.getD (y - pw.start_y) '#'

/-- Two placed words share at least one grid cell. -/
def sharesCell (a b : PlacedWord) : Prop :=
  ∃ x y, coversCell a x y ∧ coversCell b x y

/-- The grid has exactly `H` rows of `W` cells each. -/
def dims (g : Grid) (W H : Nat) : Prop :=
  g.length = H ∧ ∀ row ∈ g, row.length = W

/-- Every non-empty cell of the grid lies in the span of at least one placed
word, whose character there matches the cell. -/
def covered (p : Puzzle) : Prop :=
  ∀ x y, getCell p.grid y x ≠ '#' →
    ∃ pw ∈ p.placed_words, coversCell pw x y ∧ charAt pw x y = getCell p.grid y x

/-- Every placed word's span is written on the grid: every cell a placed word
covers holds exactly the character that word implies there. -/
def agrees (p : Puzzle) : Prop :=
  ∀ pw ∈ p.placed_words, ∀ x y, coversCell pw x y →
    getCell p.grid y x = charAt pw x y

/-- Every placed word after the first shares a cell with an earlier one. -/
def connected (p : Puzzle) : Prop :=
  ∀ i, 0 < i → i < p.placed_words.length →
    ∃ j, j < i ∧
      sharesCell (p.placed_words.getD i default) (p.placed_words.getD j default)

/-- No placed word contains the empty-cell marker. -/
def placedLetters (p : Puzzle) : Prop :=
  ∀ pw ∈ p.placed_words, ∀ c ∈ pw.word, c ≠ '#'

/-- A puzzle in the state `generate_puzzle` is invoked on: fresh grid, no
placed words (the pending `words` list is arbitrary). -/
def initInv (p : Puzzle) : Prop :=
  p.placed_words = [] ∧ p.grid = mkGrid p.width p.height

/-- The pending words are letter sequences (the spec's `WordEntry` data
model): none contains the empty-cell marker. -/
def lettersOnly (ws : List (List Char)) : Prop :=
  ∀ w ∈ ws, ∀ c ∈ w, c ≠ '#'

instance (ws : List (List Char)) : Decidable (lettersOnly ws) := by
  unfold lettersOnly
  infer_instance

/-! ### List and grid helper lemmas -/

theorem cg_getD_replicate {α : Type} (n m : Nat) (a d : α) :
    (List.replicate n a).getD m d = if m < n then a else d := by
  induction n generalizing m with
  | zero => simp
  | succ k ih =>
    cases m with
    | zero => simp [List.replicate]
    | succ m2 =>
      simp only [List.replicate, List.getD_cons_succ, ih]
      by_cases h : m2 < k
      · rw [if_pos h, if_pos (by omega)]
      · rw [if_neg h, if_neg (by omega)]

theorem cg_getD_set_eq {α : Type} (l : List α) (n : Nat) (a d : α)
    (h : n < l.length) : (l.set n a).getD n d = a := by
  rw [List.getD_eq_getElem?_getD, List.getElem?_set]
  simp [h]

theorem cg_getD_set_ne {α : Type} (l : List α) (n m : Nat) (a d : α)
    (h : n ≠ m) : (l.set n a).getD m d = l.getD m d := by
  rw [List.getD_eq_getElem?_getD, List.getElem?_set_ne h,
    ← List.getD_eq_getElem?_getD]

theorem cg_getD_mem {α : Type} (l : List α) (n : Nat) (d : α)
    (h : n < l.length) : l.getD n d ∈ l := by
  rw [List.getD_eq_getElem?_getD, List.getElem?_eq_getElem h]
  exact List.getElem_mem h

theorem cg_mem_getD {α : Type} {l : List α} {x : α} (d : α) (h : x ∈ l) :
    ∃ j, j < l.length ∧ l.getD j d = x := by
  rcases List.mem_iff_getElem.mp h with ⟨n, hn, he⟩
  exact ⟨n, hn, by rw [List.getD_eq_getElem?_getD, List.getElem?_eq_getElem hn]; exact he⟩

theorem cg_getD_append_last {α : Type} (l : List α) (x d : α) :
    (l ++ [x]).getD l.length d = x := by
  rw [List.getD_append_right l [x] d l.length (Nat.le_refl _)]
  simp

theorem getCell_mkGrid (W H y x : Nat) : getCell (mkGrid W H) y x = '#' := by
  unfold getCell mkGrid
  rw [cg_getD_replicate]
  by_cases h : y < H
  · rw [if_pos h, cg_getD_replicate]
    by_cases h2 : x < W
    · rw [if_pos h2]
    · rw [if_neg h2]
  · rw [if_neg h]; rfl

theorem dims_mkGrid (W H : Nat) : dims (mkGrid W H) W H := by
  refine ⟨by simp [mkGrid], fun row hr => ?_⟩
  rw [mkGrid] at hr
  rw [List.eq_of_mem_replicate hr]
  simp

theorem cg_setCell_dims {g : Grid} {W H : Nat} (b a : Nat) (c : Char)
    (hd : dims g W H) : dims (setCell g b a c) W H := by
  by_cases hb : b < g.length
  · refine ⟨by simp [setCell, hd.1], fun row hr => ?_⟩
    rcases List.mem_or_eq_of_mem_set hr with h | h
    · exact hd.2 row h
    · subst h
      rw [List.length_set]
      exact hd.2 _ (cg_getD_mem g b [] hb)
  · have : setCell g b a c = g := by
      unfold setCell
      exact List.set_eq_of_length_le (Nat.le_of_not_lt hb)
    rw [this]
    exact hd

theorem getCell_setCell {g : Grid} {W H : Nat} (b a : Nat) (c : Char)
    (hd : dims g W H) (hb : b < H) (ha : a < W) (y x : Nat) :
    getCell (setCell g b a c) y x = if y = b ∧ x = a then c else getCell g y x := by
  unfold getCell setCell
  by_cases hy : y = b
  · subst hy
    rw [cg_getD_set_eq g y _ [] (by rw [hd.1]; exact hb)]
    by_cases hx : x = a
    · subst hx
      rw [if_pos ⟨rfl, rfl⟩]
      apply cg_getD_set_eq
      rw [hd.2 _ (cg_getD_mem g y [] (by rw [hd.1]; exact hb))]
      exact ha
    · rw [cg_getD_set_ne _ a x _ _ (fun hh => hx hh.symm), if_neg (by tauto)]
  · rw [cg_getD_set_ne g b y _ _ (fun hh => hy hh.symm), if_neg (by tauto)]

theorem writeH_dims {W H : Nat} : ∀ (w : List Char) (g : Grid) (a b : Nat),
    dims g W H → dims (writeH g w a b) W H
  | [], _, _, _, hd => hd
  | c :: rest, g, a, b, hd =>
    writeH_dims rest (setCell g b a c) (a + 1) b (cg_setCell_dims b a c hd)

theorem writeV_dims {W H : Nat} : ∀ (w : List Char) (g : Grid) (a b : Nat),
    dims g W H → dims (writeV g w a b) W H
  | [], _, _, _, hd => hd
  | c :: rest, g, a, b, hd =>
    writeV_dims rest (setCell g b a c) a (b + 1) (cg_setCell_dims b a c hd)

theorem getCell_writeH {W H : Nat} : ∀ (w : List Char) (g : Grid) (a b : Nat),
    dims g W H → b < H → a + w.length ≤ W → ∀ y x,
    getCell (writeH g w a b) y x =
      if y = b ∧ a ≤ x ∧ x < a + w.length then w.getD (x - a) '#'
      else getCell g y x := by
  intro w
  induction w with
  | nil =>
    intro g a b _ _ _ y x
    have hneg : ¬(y = b ∧ a ≤ x ∧ x < a + ([] : List Char).length) := by
      rintro ⟨_, h2, h3⟩
      simp only [List.length_nil] at h3
      omega
    rw [writeH, if_neg hneg]
  | cons c rest ih =>
    intro g a b hd hb hlen y x
    simp only [List.length_cons] at hlen
    rw [writeH, ih (setCell g b a c) (a + 1) b (cg_setCell_dims b a c hd) hb
      (by omega) y x,
      getCell_setCell b a c hd hb (by omega) y x]
    by_cases h1 : y = b ∧ a + 1 ≤ x ∧ x < a + 1 + rest.length
    · obtain ⟨hy, h2, h3⟩ := h1
      rw [if_pos ⟨hy, h2, h3⟩,
        if_pos ⟨hy, by omega, by simp only [List.length_cons]; omega⟩]
      have hxa : x - a = (x - (a + 1)) + 1 := by omega
      rw [hxa, List.getD_cons_succ]
    · rw [if_neg h1]
      by_cases h2 : y = b ∧ x = a
      · obtain ⟨hy, hx⟩ := h2
        rw [if_pos ⟨hy, hx⟩,
          if_pos ⟨hy, by omega, by simp only [List.length_cons]; omega⟩]
        have hxa : x - a = 0 := by omega
        rw [hxa, List.getD_cons_zero]
      · have hneg : ¬(y = b ∧ a ≤ x ∧ x < a + (c :: rest).length) := by
          rintro ⟨hy, hax, hlt⟩
          simp only [List.length_cons] at hlt
          rcases Nat.eq_or_lt_of_le hax with he | hgt
          · exact h2 ⟨hy, he.symm⟩
          · exact h1 ⟨hy, hgt, by omega⟩
        rw [if_neg h2, if_neg hneg]

theorem getCell_writeV {W H : Nat} : ∀ (w : List Char) (g : Grid) (a b : Nat),
    dims g W H → a < W → b + w.length ≤ H → ∀ y x,
    getCell (writeV g w a b) y x =
      if x = a ∧ b ≤ y ∧ y < b + w.length then w.getD (y - b) '#'
      else getCell g y x := by
  intro w
  induction w with
  | nil =>
    intro g a b _ _ _ y x
    have hneg : ¬(x = a ∧ b ≤ y ∧ y < b + ([] : List Char).length) := by
      rintro ⟨_, h2, h3⟩
      simp only [List.length_nil] at h3
      omega
    rw [writeV, if_neg hneg]
  | cons c rest ih =>
    intro g a b hd ha hlen y x
    simp only [List.length_cons] at hlen
    rw [writeV, ih (setCell g b a c) a (b + 1) (cg_setCell_dims b a c hd) ha
      (by omega) y x,
      getCell_setCell b a c hd (by omega) ha y x]
    by_cases h1 : x = a ∧ b + 1 ≤ y ∧ y < b + 1 + rest.length
    · obtain ⟨hx, h2, h3⟩ := h1
      rw [if_pos ⟨hx, h2, h3⟩,
        if_pos ⟨hx, by omega, by simp only [List.length_cons]; omega⟩]
      have hyb : y - b = (y - (b + 1)) + 1 := by omega
      rw [hyb, List.getD_cons_succ]
    · rw [if_neg h1]
      by_cases h2 : y = b ∧ x = a
      · obtain ⟨hy, hx⟩ := h2
        rw [if_pos ⟨hy, hx⟩,
          if_pos ⟨hx, by omega, by simp only [List.length_cons]; omega⟩]
        have hyb : y - b = 0 := by omega
        rw [hyb, List.getD_cons_zero]
      · have hneg : ¬(x = a ∧ b ≤ y ∧ y < b + (c :: rest).length) := by
          rintro ⟨hx, hby, hlt⟩
          simp only [List.length_cons] at hlt
          rcases Nat.eq_or_lt_of_le hby with he | hgt
          · exact h2 ⟨he.symm, hx⟩
          · exact h1 ⟨hx, hgt, by omega⟩
        rw [if_neg h2, if_neg hneg]

/-! ### Connectivity-gate lemmas -/

theorem connectOK_zero (p : Puzzle) : connectOK p 0 = p.placed_words.isEmpty := by
  simp [connectOK]

theorem connectOK_of_empty {p : Puzzle} (h : p.placed_words = []) (cnt : Nat) :
    connectOK p cnt = true := by
  simp [connectOK, h]

theorem connectOK_cnt {p : Puzzle} {cnt : Nat} (h : connectOK p cnt = true)
    (hne : p.placed_words ≠ []) : cnt ≠ 0 := by
  simp only [connectOK, Bool.or_eq_true, List.isEmpty_iff, bne_iff_ne] at h
  tauto

/-! ### Soundness of the per-cell scans -/

theorem scanH_sound {p : Puzzle} : ∀ (w : List Char) (a b cnt : Nat),
    scanH p w a b = some cnt → ∀ i, i < w.length →
    (a + i < p.width ∧ b < p.height) ∧
    (getCell p.grid b (a + i) ≠ '#' → getCell p.grid b (a + i) = w.getD i '#') ∧
    (getCell p.grid b (a + i) = '#' →
      ¬(0 < b ∧ getCell p.grid (b - 1) (a + i) ≠ '#') ∧
      ¬(b < p.height - 1 ∧ getCell p.grid (b + 1) (a + i) ≠ '#')) := by
  intro w
  induction w with
  | nil => intro a b cnt _ i hi; simp at hi
  | cons c rest ih =>
    intro a b cnt hs i hi
    rw [scanH] at hs
    by_cases hA : a < p.width ∧ b < p.height
    · rw [if_pos hA] at hs
      by_cases hOcc : getCell p.grid b a ≠ '#'
      · rw [if_pos hOcc] at hs
        by_cases hEq : getCell p.grid b a = c
        · rw [if_pos hEq] at hs
          cases hrec : scanH p rest (a + 1) b with
          | none => rw [hrec] at hs; simp at hs
          | some cnt2 =>
            cases i with
            | zero =>
              refine ⟨by simpa using hA, fun _ => by simpa using hEq, fun he => ?_⟩
              exact absurd he hOcc
            | succ j =>
              have hj : j < rest.length := by
                simp only [List.length_cons] at hi; omega
              have := ih (a + 1) b cnt2 hrec j hj
              have harith : a + 1 + j = a + (j + 1) := by omega
              rw [harith] at this
              simpa using this
        · rw [if_neg hEq] at hs; simp at hs
      · rw [if_neg hOcc] at hs
        by_cases hU : 0 < b ∧ getCell p.grid (b - 1) a ≠ '#'
        · rw [if_pos hU] at hs; simp at hs
        · rw [if_neg hU] at hs
          by_cases hD : b < p.height - 1 ∧ getCell p.grid (b + 1) a ≠ '#'
          · rw [if_pos hD] at hs; simp at hs
          · rw [if_neg hD] at hs
            cases i with
            | zero =>
              refine ⟨by simpa using hA, fun habs => absurd habs ?_, fun _ => ?_⟩
              · simpa using hOcc
              · exact ⟨by simpa using hU, by simpa using hD⟩
            | succ j =>
              have hj : j < rest.length := by
                simp only [List.length_cons] at hi; omega
              have := ih (a + 1) b cnt hs j hj
              have harith : a + 1 + j = a + (j + 1) := by omega
              rw [harith] at this
              simpa using this
    · rw [if_neg hA] at hs; simp at hs

theorem scanV_sound {p : Puzzle} : ∀ (w : List Char) (a b cnt : Nat),
    scanV p w a b = some cnt → ∀ i, i < w.length →
    (a < p.width ∧ b + i < p.height) ∧
    (getCell p.grid (b + i) a ≠ '#' → getCell p.grid (b + i) a = w.getD i '#') ∧
    (getCell p.grid (b + i) a = '#' →
      ¬(0 < a ∧ getCell p.grid (b + i) (a - 1) ≠ '#') ∧
      ¬(a < p.width - 1 ∧ getCell p.grid (b + i) (a + 1) ≠ '#')) := by
  intro w
  induction w with
  | nil => intro a b cnt _ i hi; simp at hi
  | cons c rest ih =>
    intro a b cnt hs i hi
    rw [scanV] at hs
    by_cases hA : a < p.width ∧ b < p.height
    · rw [if_pos hA] at hs
      by_cases hOcc : getCell p.grid b a ≠ '#'
      · rw [if_pos hOcc] at hs
        by_cases hEq : getCell p.grid b a = c
        · rw [if_pos hEq] at hs
          cases hrec : scanV p rest a (b + 1) with
          | none => rw [hrec] at hs; simp at hs
          | some cnt2 =>
            cases i with
            | zero =>
              refine ⟨by simpa using hA, fun _ => by simpa using hEq, fun he => ?_⟩
              exact absurd he hOcc
            | succ j =>
              have hj : j < rest.length := by
                simp only [List.length_cons] at hi; omega
              have := ih a (b + 1) cnt2 hrec j hj
              have harith : b + 1 + j = b + (j + 1) := by omega
              rw [harith] at this
              simpa using this
        · rw [if_neg hEq] at hs; simp at hs
      · rw [if_neg hOcc] at hs
        by_cases hU : 0 < a ∧ getCell p.grid b (a - 1) ≠ '#'
        · rw [if_pos hU] at hs; simp at hs
        · rw [if_neg hU] at hs
          by_cases hD : a < p.width - 1 ∧ getCell p.grid b (a + 1) ≠ '#'
          · rw [if_pos hD] at hs; simp at hs
          · rw [if_neg hD] at hs
            cases i with
            | zero =>
              refine ⟨by simpa using hA, fun habs => absurd habs ?_, fun _ => ?_⟩
              · simpa using hOcc
              · exact ⟨by simpa using hU, by simpa using hD⟩
            | succ j =>
              have hj : j < rest.length := by
                simp only [List.length_cons] at hi; omega
              have := ih a (b + 1) cnt hs j hj
              have harith : b + 1 + j = b + (j + 1) := by omega
              rw [harith] at this
              simpa using this
    · rw [if_neg hA] at hs; simp at hs

theorem scanH_cnt {p : Puzzle} : ∀ (w : List Char) (a b cnt : Nat),
    scanH p w a b = some cnt → cnt ≠ 0 →
    ∃ m, m < w.length ∧ getCell p.grid b (a + m) ≠ '#' := by
  intro w
  induction w with
  | nil =>
    intro a b cnt hs hc
    rw [scanH] at hs
    exact absurd (Option.some_injective _ hs).symm hc
  | cons c rest ih =>
    intro a b cnt hs hc
    rw [scanH] at hs
    by_cases hA : a < p.width ∧ b < p.height
    · rw [if_pos hA] at hs
      by_cases hOcc : getCell p.grid b a ≠ '#'
      · exact ⟨0, by simp, by simpa using hOcc⟩
      · rw [if_neg hOcc] at hs
        by_cases hU : 0 < b ∧ getCell p.grid (b - 1) a ≠ '#'
        · rw [if_pos hU] at hs; simp at hs
        · rw [if_neg hU] at hs
          by_cases hD : b < p.height - 1 ∧ getCell p.grid (b + 1) a ≠ '#'
          · rw [if_pos hD] at hs; simp at hs
          · rw [if_neg hD] at hs
            rcases ih (a + 1) b cnt hs hc with ⟨m, hm, hocc⟩
            refine ⟨m + 1, by simp only [List.length_cons]; omega, ?_⟩
            have harith : a + (m + 1) = a + 1 + m := by omega
            rw [harith]
            exact hocc
    · rw [if_neg hA] at hs; simp at hs

theorem scanV_cnt {p : Puzzle} : ∀ (w : List Char) (a b cnt : Nat),
    scanV p w a b = some cnt → cnt ≠ 0 →
    ∃ m, m < w.length ∧ getCell p.grid (b + m) a ≠ '#' := by
  intro w
  induction w with
  | nil =>
    intro a b cnt hs hc
    rw [scanV] at hs
    exact absurd (Option.some_injective _ hs).symm hc
  | cons c rest ih =>
    intro a b cnt hs hc
    rw [scanV] at hs
    by_cases hA : a < p.width ∧ b < p.height
    · rw [if_pos hA] at hs
      by_cases hOcc : getCell p.grid b a ≠ '#'
      · exact ⟨0, by simp, by simpa using hOcc⟩
      · rw [if_neg hOcc] at hs
        by_cases hU : 0 < a ∧ getCell p.grid b (a - 1) ≠ '#'
        · rw [if_pos hU] at hs; simp at hs
        · rw [if_neg hU] at hs
          by_cases hD : a < p.width - 1 ∧ getCell p.grid b (a + 1) ≠ '#'
          · rw [if_pos hD] at hs; simp at hs
          · rw [if_neg hD] at hs
            rcases ih a (b + 1) cnt hs hc with ⟨m, hm, hocc⟩
            refine ⟨m + 1, by simp only [List.length_cons]; omega, ?_⟩
            have harith : b + (m + 1) = b + 1 + m := by omega
            rw [harith]
            exact hocc
    · rw [if_neg hA] at hs; simp at hs

/-! ### Inversion of the validator -/

theorem canPlace_h_elim {p : Puzzle} {w : List Char} {sx sy : Int}
    (h : canPlaceWord p w sx sy "horizontal" = true) :
    0 ≤ sx ∧ 0 ≤ sy ∧ sx.toNat + w.length ≤ p.width ∧
    (∃ cnt, scanH p w sx.toNat sy.toNat = some cnt ∧ connectOK p cnt = true) ∧
    ¬(0 < sx.toNat ∧ getCell p.grid sy.toNat (sx.toNat - 1) ≠ '#') ∧
    ¬(sx.toNat + w.length < p.width ∧
      getCell p.grid sy.toNat (sx.toNat + w.length) ≠ '#') := by
  rw [canPlaceWord] at h
  by_cases hneg : sx < 0 ∨ sy < 0
  · rw [if_pos hneg] at h; simp at h
  · rw [if_neg hneg, if_pos rfl] at h
    by_cases hbd : p.width < sx.toNat + w.length
    · rw [if_pos hbd] at h; simp at h
    · rw [if_neg hbd] at h
      cases hscan : scanH p w sx.toNat sy.toNat with
      | none => rw [hscan] at h; simp at h
      | some cnt =>
        rw [hscan] at h
        simp only [] at h
        by_cases hb1 : 0 < sx.toNat ∧ getCell p.grid sy.toNat (sx.toNat - 1) ≠ '#'
        · rw [if_pos hb1] at h; simp at h
        · rw [if_neg hb1] at h
          by_cases hb2 : sx.toNat + w.length < p.width ∧
              getCell p.grid sy.toNat (sx.toNat + w.length) ≠ '#'
          · rw [if_pos hb2] at h; simp at h
          · rw [if_neg hb2] at h
            push_neg at hneg
            exact ⟨hneg.1, hneg.2, Nat.le_of_not_lt hbd, ⟨cnt, rfl, h⟩, hb1, hb2⟩

theorem canPlace_v_elim {p : Puzzle} {w : List Char} {sx sy : Int}
    (h : canPlaceWord p w sx sy "vertical" = true) :
    0 ≤ sx ∧ 0 ≤ sy ∧ sy.toNat + w.length ≤ p.height ∧
    (∃ cnt, scanV p w sx.toNat sy.toNat = some cnt ∧ connectOK p cnt = true) ∧
    ¬(0 < sy.toNat ∧ getCell p.grid (sy.toNat - 1) sx.toNat ≠ '#') ∧
    ¬(sy.toNat + w.length < p.height ∧
      getCell p.grid (sy.toNat + w.length) sx.toNat ≠ '#') := by
  rw [canPlaceWord] at h
  by_cases hneg : sx < 0 ∨ sy < 0
  · rw [if_pos hneg] at h; simp at h
  · rw [if_neg hneg, if_neg (by decide), if_pos rfl] at h
    by_cases hbd : p.height < sy.toNat + w.length
    · rw [if_pos hbd] at h; simp at h
    · rw [if_neg hbd] at h
      cases hscan : scanV p w sx.toNat sy.toNat with
      | none => rw [hscan] at h; simp at h
      | some cnt =>
        rw [hscan] at h
        simp only [] at h
        by_cases hb1 : 0 < sy.toNat ∧ getCell p.grid (sy.toNat - 1) sx.toNat ≠ '#'
        · rw [if_pos hb1] at h; simp at h
        · rw [if_neg hb1] at h
          by_cases hb2 : sy.toNat + w.length < p.height ∧
              getCell p.grid (sy.toNat + w.length) sx.toNat ≠ '#'
          · rw [if_pos hb2] at h; simp at h
          · rw [if_neg hb2] at h
            push_neg at hneg
            exact ⟨hneg.1, hneg.2, Nat.le_of_not_lt hbd, ⟨cnt, rfl, h⟩, hb1, hb2⟩

theorem canPlace_other {p : Puzzle} {w : List Char} {sx sy : Int} {d : String}
    (hd1 : d ≠ "horizontal") (hd2 : d ≠ "vertical") (hx : 0 ≤ sx) (hy : 0 ≤ sy) :
    canPlaceWord p w sx sy d = connectOK p 0 := by
  rw [canPlaceWord, if_neg (by omega), if_neg hd1, if_neg hd2]

/-! ### Scans over a fresh grid -/

theorem scanH_fresh {p : Puzzle} (hg : p.grid = mkGrid p.width p.height) :
    ∀ (w : List Char) (a b : Nat), b < p.height → a + w.length ≤ p.width →
    scanH p w a b = some 0 := by
  intro w
  induction w with
  | nil => intro a b _ _; rw [scanH]
  | cons c rest ih =>
    intro a b hb hlen
    simp only [List.length_cons] at hlen
    rw [scanH, if_pos ⟨by omega, hb⟩, hg]
    have h1 : ¬(getCell (mkGrid p.width p.height) b a ≠ '#') := by
      rw [getCell_mkGrid]; simp
    have h2 : ¬(0 < b ∧ getCell (mkGrid p.width p.height) (b - 1) a ≠ '#') := by
      rw [getCell_mkGrid]; simp
    have h3 : ¬(b < p.height - 1 ∧
        getCell (mkGrid p.width p.height) (b + 1) a ≠ '#') := by
      rw [getCell_mkGrid]; simp
    rw [if_neg h1, if_neg h2, if_neg h3]
    exact ih (a + 1) b hb (by omega)

theorem scanV_fresh {p : Puzzle} (hg : p.grid = mkGrid p.width p.height) :
    ∀ (w : List Char) (a b : Nat), a < p.width → b + w.length ≤ p.height →
    scanV p w a b = some 0 := by
  intro w
  induction w with
  | nil => intro a b _ _; rw [scanV]
  | cons c rest ih =>
    intro a b ha hlen
    simp only [List.length_cons] at hlen
    rw [scanV, if_pos ⟨ha, by omega⟩, hg]
    have h1 : ¬(getCell (mkGrid p.width p.height) b a ≠ '#') := by
      rw [getCell_mkGrid]; simp
    have h2 : ¬(0 < a ∧ getCell (mkGrid p.width p.height) b (a - 1) ≠ '#') := by
      rw [getCell_mkGrid]; simp
    have h3 : ¬(a < p.width - 1 ∧
        getCell (mkGrid p.width p.height) b (a + 1) ≠ '#') := by
      rw [getCell_mkGrid]; simp
    rw [if_neg h1, if_neg h2, if_neg h3]
    exact ih a (b + 1) ha (by omega)

/-! ### Span helpers -/

theorem coversCell_h {w : List Char} {a b x y : Nat} :
    coversCell ⟨w, a, b, "horizontal"⟩ x y ↔ y = b ∧ a ≤ x ∧ x < a + w.length := by
  unfold coversCell
  simp

theorem coversCell_v {w : List Char} {a b x y : Nat} :
    coversCell ⟨w, a, b, "vertical"⟩ x y ↔ x = a ∧ b ≤ y ∧ y < b + w.length := by
  unfold coversCell
  simp

theorem coversCell_none {w : List Char} {a b x y : Nat} {d : String}
    (hd1 : d ≠ "horizontal") (hd2 : d ≠ "vertical") :
    ¬coversCell ⟨w, a, b, d⟩ x y := by
  unfold coversCell
  rintro (⟨h, _⟩ | ⟨h, _⟩)
  · exact hd1 h
  · exact hd2 h

theorem charAt_h {w : List Char} {a b x y : Nat} :
    charAt ⟨w, a, b, "horizontal"⟩ x y = w.getD (x - a) '#' := by
  unfold charAt
  rw [if_pos rfl]

theorem charAt_v {w : List Char} {a b x y : Nat} :
    charAt ⟨w, a, b, "vertical"⟩ x y = w.getD (y - b) '#' := by
  unfold charAt
  rw [if_neg (by simp)]

theorem charAt_mem {pw : PlacedWord} {x y : Nat} (h : coversCell pw x y) :
    charAt pw x y ∈ pw.word := by
  unfold coversCell at h
  unfold charAt
  rcases h with ⟨hd, _, hax, hlt⟩ | ⟨hd, _, hby, hlt⟩
  · rw [if_pos hd]
    exact cg_getD_mem _ _ _ (by omega)
  · rw [if_neg (by rw [hd]; decide)]
    exact cg_getD_mem _ _ _ (by omega)

/-! ### Projections of the mutator -/

theorem placeWord_width (p : Puzzle) (w : List Char) (a b : Nat) (d : String) :
    (placeWord p w a b d).width = p.width := rfl

theorem placeWord_height (p : Puzzle) (w : List Char) (a b : Nat) (d : String) :
    (placeWord p w a b d).height = p.height := rfl

theorem placeWord_placed (p : Puzzle) (w : List Char) (a b : Nat) (d : String) :
    (placeWord p w a b d).placed_words = p.placed_words ++ [⟨w, a, b, d⟩] := rfl

theorem placeWord_grid_h (p : Puzzle) (w : List Char) (a b : Nat) :
    (placeWord p w a b "horizontal").grid = writeH p.grid w a b := by
  unfold placeWord
  rw [if_pos rfl]

theorem placeWord_grid_v (p : Puzzle) (w : List Char) (a b : Nat) :
    (placeWord p w a b "vertical").grid = writeV p.grid w a b := by
  unfold placeWord
  rw [if_neg (by decide), if_pos rfl]

theorem placeWord_grid_none (p : Puzzle) (w : List Char) (a b : Nat) {d : String}
    (hd1 : d ≠ "horizontal") (hd2 : d ≠ "vertical") :
    (placeWord p w a b d).grid = p.grid := by
  unfold placeWord
  rw [if_neg hd1, if_neg hd2]

/-! ### Preservation of the generation invariants by one placement -/

/-- Invariant used for connectivity: well-formed grid, every occupied cell
is covered by a placed word (with matching character), and every placed word
after the first touches an earlier one. -/
def Inv1 (p : Puzzle) : Prop :=
  dims p.grid p.width p.height ∧ covered p ∧ connected p

/-- Invariant used for grid consistency: well-formed grid, coverage, every
placed word fully written on the grid, and placed words free of the marker. -/
def Inv2 (p : Puzzle) : Prop :=
  dims p.grid p.width p.height ∧ covered p ∧ agrees p ∧ placedLetters p

theorem placedLetters_place {p : Puzzle} {w : List Char} {a b : Nat} {d : String}
    (hpl : placedLetters p) (hlet : ∀ c ∈ w, c ≠ '#') :
    placedLetters (placeWord p w a b d) := by
  intro pw hmem c hcmem
  rw [placeWord_placed] at hmem
  rcases List.mem_append.mp hmem with hold | hnew
  · exact hpl pw hold c hcmem
  · have hpw : pw = ⟨w, a, b, d⟩ := by simpa using hnew
    subst hpw
    exact hlet c hcmem

theorem dims_place {p : Puzzle} {w : List Char} {a b : Nat} (d : String)
    (hdim : dims p.grid p.width p.height) :
    dims (placeWord p w a b d).grid p.width p.height := by
  by_cases hd1 : d = "horizontal"
  · subst hd1
    rw [placeWord_grid_h]
    exact writeH_dims w p.grid a b hdim
  · by_cases hd2 : d = "vertical"
    · subst hd2
      rw [placeWord_grid_v]
      exact writeV_dims w p.grid a b hdim
    · rw [placeWord_grid_none p w a b hd1 hd2]
      exact hdim

theorem place_h_getCell {p : Puzzle} {w : List Char} {sx sy : Int}
    (hdim : dims p.grid p.width p.height)
    (hc : canPlaceWord p w sx sy "horizontal" = true) (hw : w ≠ []) :
    ∀ y x, getCell (placeWord p w sx.toNat sy.toNat "horizontal").grid y x =
      if y = sy.toNat ∧ sx.toNat ≤ x ∧ x < sx.toNat + w.length
      then w.getD (x - sx.toNat) '#' else getCell p.grid y x := by
  obtain ⟨_, _, hlen, ⟨cnt, hscan, _⟩, _, _⟩ := canPlace_h_elim hc
  have hwl : 0 < w.length := List.length_pos.mpr hw
  have hb : sy.toNat < p.height :=
    (scanH_sound w sx.toNat sy.toNat cnt hscan 0 hwl).1.2
  intro y x
  rw [placeWord_grid_h]
  exact getCell_writeH w p.grid sx.toNat sy.toNat hdim hb hlen y x

theorem place_v_getCell {p : Puzzle} {w : List Char} {sx sy : Int}
    (hdim : dims p.grid p.width p.height)
    (hc : canPlaceWord p w sx sy "vertical" = true) (hw : w ≠ []) :
    ∀ y x, getCell (placeWord p w sx.toNat sy.toNat "vertical").grid y x =
      if x = sx.toNat ∧ sy.toNat ≤ y ∧ y < sy.toNat + w.length
      then w.getD (y - sy.toNat) '#' else getCell p.grid y x := by
  obtain ⟨_, _, hlen, ⟨cnt, hscan, _⟩, _, _⟩ := canPlace_v_elim hc
  have hwl : 0 < w.length := List.length_pos.mpr hw
  have ha : sx.toNat < p.width :=
    (scanV_sound w sx.toNat sy.toNat cnt hscan 0 hwl).1.1
  intro y x
  rw [placeWord_grid_v]
  exact getCell_writeV w p.grid sx.toNat sy.toNat hdim ha hlen y x

theorem covered_place_h {p : Puzzle} {w : List Char} {sx sy : Int}
    (hdim : dims p.grid p.width p.height) (hcov : covered p)
    (hc : canPlaceWord p w sx sy "horizontal" = true) :
    covered (placeWord p w sx.toNat sy.toNat "horizontal") := by
  by_cases hw : w = []
  · subst hw
    have hg : (placeWord p [] sx.toNat sy.toNat "horizontal").grid = p.grid := by
      rw [placeWord_grid_h, writeH]
    intro x y hne
    rw [hg] at hne
    rcases hcov x y hne with ⟨pw, hmem, hcover, hchar⟩
    exact ⟨pw, by rw [placeWord_placed]; exact List.mem_append_left _ hmem,
      hcover, by rw [hg]; exact hchar⟩
  · have hget := place_h_getCell hdim hc hw
    intro x y hne
    rw [hget y x] at hne
    by_cases hin : y = sy.toNat ∧ sx.toNat ≤ x ∧ x < sx.toNat + w.length
    · refine ⟨⟨w, sx.toNat, sy.toNat, "horizontal"⟩,
        by rw [placeWord_placed]; exact List.mem_append_right _ (by simp),
        coversCell_h.mpr hin, ?_⟩
      rw [charAt_h, hget y x, if_pos hin]
    · rw [if_neg hin] at hne
      rcases hcov x y hne with ⟨pw, hmem, hcover, hchar⟩
      refine ⟨pw, by rw [placeWord_placed]; exact List.mem_append_left _ hmem,
        hcover, ?_⟩
      rw [hget y x, if_neg hin]
      exact hchar

theorem covered_place_v {p : Puzzle} {w : List Char} {sx sy : Int}
    (hdim : dims p.grid p.width p.height) (hcov : covered p)
    (hc : canPlaceWord p w sx sy "vertical" = true) :
    covered (placeWord p w sx.toNat sy.toNat "vertical") := by
  by_cases hw : w = []
  · subst hw
    have hg : (placeWord p [] sx.toNat sy.toNat "vertical").grid = p.grid := by
      rw [placeWord_grid_v, writeV]
    intro x y hne
    rw [hg] at hne
    rcases hcov x y hne with ⟨pw, hmem, hcover, hchar⟩
    exact ⟨pw, by rw [placeWord_placed]; exact List.mem_append_left _ hmem,
      hcover, by rw [hg]; exact hchar⟩
  · have hget := place_v_getCell hdim hc hw
    intro x y hne
    rw [hget y x] at hne
    by_cases hin : x = sx.toNat ∧ sy.toNat ≤ y ∧ y < sy.toNat + w.length
    · refine ⟨⟨w, sx.toNat, sy.toNat, "vertical"⟩,
        by rw [placeWord_placed]; exact List.mem_append_right _ (by simp),
        coversCell_v.mpr hin, ?_⟩
      rw [charAt_v, hget y x, if_pos hin]
    · rw [if_neg hin] at hne
      rcases hcov x y hne with ⟨pw, hmem, hcover, hchar⟩
      refine ⟨pw, by rw [placeWord_placed]; exact List.mem_append_left _ hmem,
        hcover, ?_⟩
      rw [hget y x, if_neg hin]
      exact hchar

theorem connected_place_h {p : Puzzle} {w : List Char} {sx sy : Int}
    (hcov : covered p) (hconn : connected p)
    (hc : canPlaceWord p w sx sy "horizontal" = true) :
    connected (placeWord p w sx.toNat sy.toNat "horizontal") := by
  obtain ⟨_, _, hlen, ⟨cnt, hscan, hok⟩, _, _⟩ := canPlace_h_elim hc
  intro i hi0 hilen
  rw [placeWord_placed, List.length_append] at hilen
  simp only [List.length_singleton] at hilen
  by_cases hiold : i < p.placed_words.length
  · rcases hconn i hi0 hiold with ⟨j, hj, hshare⟩
    refine ⟨j, hj, ?_⟩
    rw [placeWord_placed, List.getD_append _ _ _ i hiold,
      List.getD_append _ _ _ j (by omega)]
    exact hshare
  · have hieq : i = p.placed_words.length := by omega
    have hne : p.placed_words ≠ [] := by
      intro hemp
      rw [hemp] at hieq
      simp at hieq
      omega
    have hcnt := connectOK_cnt hok hne
    rcases scanH_cnt w sx.toNat sy.toNat cnt hscan hcnt with ⟨m, hm, hocc⟩
    rcases hcov (sx.toNat + m) sy.toNat hocc with ⟨pw, hmem, hcover, _⟩
    rcases cg_mem_getD default hmem with ⟨j, hjlen, hjeq⟩
    refine ⟨j, by omega, ?_⟩
    rw [placeWord_placed, hieq, cg_getD_append_last,
      List.getD_append _ _ _ j hjlen, hjeq]
    exact ⟨sx.toNat + m, sy.toNat,
      coversCell_h.mpr ⟨rfl, by omega, by omega⟩, hcover⟩

theorem connected_place_v {p : Puzzle} {w : List Char} {sx sy : Int}
    (hcov : covered p) (hconn : connected p)
    (hc : canPlaceWord p w sx sy "vertical" = true) :
    connected (placeWord p w sx.toNat sy.toNat "vertical") := by
  obtain ⟨_, _, hlen, ⟨cnt, hscan, hok⟩, _, _⟩ := canPlace_v_elim hc
  intro i hi0 hilen
  rw [placeWord_placed, List.length_append] at hilen
  simp only [List.length_singleton] at hilen
  by_cases hiold : i < p.placed_words.length
  · rcases hconn i hi0 hiold with ⟨j, hj, hshare⟩
    refine ⟨j, hj, ?_⟩
    rw [placeWord_placed, List.getD_append _ _ _ i hiold,
      List.getD_append _ _ _ j (by omega)]
    exact hshare
  · have hieq : i = p.placed_words.length := by omega
    have hne : p.placed_words ≠ [] := by
      intro hemp
      rw [hemp] at hieq
      simp at hieq
      omega
    have hcnt := connectOK_cnt hok hne
    rcases scanV_cnt w sx.toNat sy.toNat cnt hscan hcnt with ⟨m, hm, hocc⟩
    rcases hcov sx.toNat (sy.toNat + m) hocc with ⟨pw, hmem, hcover, _⟩
    rcases cg_mem_getD default hmem with ⟨j, hjlen, hjeq⟩
    refine ⟨j, by omega, ?_⟩
    rw [placeWord_placed, hieq, cg_getD_append_last,
      List.getD_append _ _ _ j hjlen, hjeq]
    exact ⟨sx.toNat, sy.toNat + m,
      coversCell_v.mpr ⟨rfl, by omega, by omega⟩, hcover⟩

theorem agrees_place_h {p : Puzzle} {w : List Char} {sx sy : Int}
    (hdim : dims p.grid p.width p.height) (hagr : agrees p)
    (hpl : placedLetters p) (hlet : ∀ c ∈ w, c ≠ '#')
    (hc : canPlaceWord p w sx sy "horizontal" = true) :
    agrees (placeWord p w sx.toNat sy.toNat "horizontal") := by
  obtain ⟨_, _, hlen, ⟨cnt, hscan, _⟩, _, _⟩ := canPlace_h_elim hc
  by_cases hw : w = []
  · subst hw
    have hg : (placeWord p [] sx.toNat sy.toNat "horizontal").grid = p.grid := by
      rw [placeWord_grid_h, writeH]
    intro pw hmem x y hcover
    rw [placeWord_placed] at hmem
    rcases List.mem_append.mp hmem with hold | hnew
    · rw [hg]
      exact hagr pw hold x y hcover
    · exfalso
      have hpw : pw = ⟨[], sx.toNat, sy.toNat, "horizontal"⟩ := by simpa using hnew
      subst hpw
      have hspan := coversCell_h.mp hcover
      simp only [List.length_nil] at hspan
      omega
  · have hget := place_h_getCell hdim hc hw
    intro pw hmem x y hcover
    rw [placeWord_placed] at hmem
    rcases List.mem_append.mp hmem with hold | hnew
    · by_cases hin : y = sy.toNat ∧ sx.toNat ≤ x ∧ x < sx.toNat + w.length
      · obtain ⟨hyb, hax, hxlt⟩ := hin
        rw [hget y x, if_pos ⟨hyb, hax, hxlt⟩]
        have hagree := hagr pw hold x y hcover
        by_cases hcell : getCell p.grid y x = '#'
        · exfalso
          have hch : charAt pw x y = '#' := hagree.symm.trans hcell
          exact hpl pw hold (charAt pw x y) (charAt_mem hcover) hch
        · have hi2 : x - sx.toNat < w.length := by omega
          have hxa : sx.toNat + (x - sx.toNat) = x := by omega
          have hsnd := (scanH_sound w sx.toNat sy.toNat cnt hscan
            (x - sx.toNat) hi2).2.1
          rw [hxa, ← hyb] at hsnd
          exact (hsnd hcell).symm.trans hagree
      · rw [hget y x, if_neg hin]
        exact hagr pw hold x y hcover
    · have hpw : pw = ⟨w, sx.toNat, sy.toNat, "horizontal"⟩ := by simpa using hnew
      subst hpw
      have hin := coversCell_h.mp hcover
      rw [hget y x, if_pos hin, charAt_h]

theorem agrees_place_v {p : Puzzle} {w : List Char} {sx sy : Int}
    (hdim : dims p.grid p.width p.height) (hagr : agrees p)
    (hpl : placedLetters p) (hlet : ∀ c ∈ w, c ≠ '#')
    (hc : canPlaceWord p w sx sy "vertical" = true) :
    agrees (placeWord p w sx.toNat sy.toNat "vertical") := by
  obtain ⟨_, _, hlen, ⟨cnt, hscan, _⟩, _, _⟩ := canPlace_v_elim hc
  by_cases hw : w = []
  · subst hw
    have hg : (placeWord p [] sx.toNat sy.toNat "vertical").grid = p.grid := by
      rw [placeWord_grid_v, writeV]
    intro pw hmem x y hcover
    rw [placeWord_placed] at hmem
    rcases List.mem_append.mp hmem with hold | hnew
    · rw [hg]
      exact hagr pw hold x y hcover
    · exfalso
      have hpw : pw = ⟨[], sx.toNat, sy.toNat, "vertical"⟩ := by simpa using hnew
      subst hpw
      have hspan := coversCell_v.mp hcover
      simp only [List.length_nil] at hspan
      omega
  · have hget := place_v_getCell hdim hc hw
    intro pw hmem x y hcover
    rw [placeWord_placed] at hmem
    rcases List.mem_append.mp hmem with hold | hnew
    · by_cases hin : x = sx.toNat ∧ sy.toNat ≤ y ∧ y < sy.toNat + w.length
      · obtain ⟨hxa2, hby, hylt⟩ := hin
        rw [hget y x, if_pos ⟨hxa2, hby, hylt⟩]
        have hagree := hagr pw hold x y hcover
        by_cases hcell : getCell p.grid y x = '#'
        · exfalso
          have hch : charAt pw x y = '#' := hagree.symm.trans hcell
          exact hpl pw hold (charAt pw x y) (charAt_mem hcover) hch
        · have hi2 : y - sy.toNat < w.length := by omega
          have hya : sy.toNat + (y - sy.toNat) = y := by omega
          have hsnd := (scanV_sound w sx.toNat sy.toNat cnt hscan
            (y - sy.toNat) hi2).2.1
          rw [hya, ← hxa2] at hsnd
          exact (hsnd hcell).symm.trans hagree
      · rw [hget y x, if_neg hin]
        exact hagr pw hold x y hcover
    · have hpw : pw = ⟨w, sx.toNat, sy.toNat, "vertical"⟩ := by simpa using hnew
      subst hpw
      have hin := coversCell_v.mp hcover
      rw [hget y x, if_pos hin, charAt_v]

theorem canPlace_none_elim {p : Puzzle} {w : List Char} {sx sy : Int} {d : String}
    (hd1 : d ≠ "horizontal") (hd2 : d ≠ "vertical")
    (hc : canPlaceWord p w sx sy d = true) : p.placed_words = [] := by
  rw [canPlaceWord] at hc
  by_cases hneg : sx < 0 ∨ sy < 0
  · rw [if_pos hneg] at hc
    simp at hc
  · rw [if_neg hneg, if_neg hd1, if_neg hd2, connectOK_zero] at hc
    exact List.isEmpty_iff.mp hc

theorem covered_place_none {p : Puzzle} {w : List Char} {a b : Nat} {d : String}
    (hd1 : d ≠ "horizontal") (hd2 : d ≠ "vertical") (hcov : covered p) :
    covered (placeWord p w a b d) := by
  intro x y hne
  rw [placeWord_grid_none p w a b hd1 hd2] at hne
  rcases hcov x y hne with ⟨pw, hmem, hcover, hchar⟩
  exact ⟨pw, by rw [placeWord_placed]; exact List.mem_append_left _ hmem, hcover,
    by rw [placeWord_grid_none p w a b hd1 hd2]; exact hchar⟩

theorem agrees_place_none {p : Puzzle} {w : List Char} {a b : Nat} {d : String}
    (hd1 : d ≠ "horizontal") (hd2 : d ≠ "vertical") (hagr : agrees p) :
    agrees (placeWord p w a b d) := by
  intro pw hmem x y hcover
  rw [placeWord_placed] at hmem
  rw [placeWord_grid_none p w a b hd1 hd2]
  rcases List.mem_append.mp hmem with hold | hnew
  · exact hagr pw hold x y hcover
  · exfalso
    have hpw : pw = ⟨w, a, b, d⟩ := by simpa using hnew
    subst hpw
    exact coversCell_none hd1 hd2 hcover

theorem connected_place_none {p : Puzzle} {w : List Char} {a b : Nat} {d : String}
    (hemp : p.placed_words = []) :
    connected (placeWord p w a b d) := by
  intro i hi0 hilen
  rw [placeWord_placed, hemp] at hilen
  simp at hilen
  omega

theorem place_inv1 {p : Puzzle} {w : List Char} {sx sy : Int} {d : String}
    (hI : Inv1 p) (hc : canPlaceWord p w sx sy d = true) :
    Inv1 (placeWord p w sx.toNat sy.toNat d) := by
  obtain ⟨hdim, hcov, hconn⟩ := hI
  by_cases hd1 : d = "horizontal"
  · subst hd1
    exact ⟨dims_place _ hdim, covered_place_h hdim hcov hc,
      connected_place_h hcov hconn hc⟩
  · by_cases hd2 : d = "vertical"
    · subst hd2
      exact ⟨dims_place _ hdim, covered_place_v hdim hcov hc,
        connected_place_v hcov hconn hc⟩
    · have hemp := canPlace_none_elim hd1 hd2 hc
      exact ⟨dims_place _ hdim, covered_place_none hd1 hd2 hcov,
        connected_place_none hemp⟩

theorem place_inv2 {p : Puzzle} {w : List Char} {sx sy : Int} {d : String}
    (hI : Inv2 p) (hlet : ∀ c ∈ w, c ≠ '#')
    (hc : canPlaceWord p w sx sy d = true) :
    Inv2 (placeWord p w sx.toNat sy.toNat d) := by
  obtain ⟨hdim, hcov, hagr, hpl⟩ := hI
  by_cases hd1 : d = "horizontal"
  · subst hd1
    exact ⟨dims_place _ hdim, covered_place_h hdim hcov hc,
      agrees_place_h hdim hagr hpl hlet hc, placedLetters_place hpl hlet⟩
  · by_cases hd2 : d = "vertical"
    · subst hd2
      exact ⟨dims_place _ hdim, covered_place_v hdim hcov hc,
        agrees_place_v hdim hagr hpl hlet hc, placedLetters_place hpl hlet⟩
    · exact ⟨dims_place _ hdim, covered_place_none hd1 hd2 hcov,
        agrees_place_none hd1 hd2 hagr, placedLetters_place hpl hlet⟩

/-! ### The search only commits validator-approved placements -/

theorem randTrials_some {p : Puzzle} {w : List Char} {dirs : List String}
    {r : Nat → Nat} : ∀ (fuel k : Nat) {sx sy : Int} {d : String},
    (randTrials p w dirs r fuel k).1 = some (sx, sy, d) →
    canPlaceWord p w sx sy d = true := by
  intro fuel
  induction fuel with
  | zero =>
    intro k sx sy d h
    rw [randTrials] at h
    simp at h
  | succ n ih =>
    intro k sx sy d h
    simp only [randTrials] at h
    split at h
    · split at h
      · exact ih (k + 1) h
      · split at h
        · rename_i hcp
          simp only [Option.some.injEq, Prod.mk.injEq] at h
          obtain ⟨h1, h2, h3⟩ := h
          rw [← h1, ← h2, ← h3]
          exact hcp
        · exact ih (k + 3) h
    · split at h
      · exact ih (k + 1) h
      · split at h
        · rename_i hcp
          simp only [Option.some.injEq, Prod.mk.injEq] at h
          obtain ⟨h1, h2, h3⟩ := h
          rw [← h1, ← h2, ← h3]
          exact hcp
        · exact ih (k + 3) h

theorem tryPlacements_elim {p : Puzzle} : ∀ (l : List Candidate) {q : Puzzle},
    tryPlacements p l = some q →
    ∃ c ∈ l, canPlaceWord p c.1 c.2.1 c.2.2.1 c.2.2.2 = true ∧
      q = placeWord p c.1 c.2.1.toNat c.2.2.1.toNat c.2.2.2 := by
  intro l
  induction l with
  | nil =>
    intro q h
    rw [tryPlacements] at h
    simp at h
  | cons c rest ih =>
    intro q h
    obtain ⟨w2, sx2, sy2, d2⟩ := c
    rw [tryPlacements] at h
    by_cases hcp : canPlaceWord p w2 sx2 sy2 d2 = true
    · rw [if_pos hcp] at h
      exact ⟨(w2, sx2, sy2, d2), by simp, hcp, (Option.some_injective _ h).symm⟩
    · rw [if_neg hcp] at h
      rcases ih h with ⟨c2, hm, hcp2, hq⟩
      exact ⟨c2, List.mem_cons_of_mem _ hm, hcp2, hq⟩

theorem pairCandidate_word {p : Puzzle} {w : List Char} {dirs : List String}
    {pw : PlacedWord} {i j : Nat} :
    ∀ c ∈ pairCandidate p w dirs pw i j, c.1 = w := by
  intro c hc
  simp only [pairCandidate] at hc
  split_ifs at hc <;>
    first
      | exact absurd hc (List.not_mem_nil c)
      | (simp only [List.mem_singleton] at hc; rw [hc])

theorem intersectionCandidates_word {p : Puzzle} {w : List Char}
    {dirs : List String} :
    ∀ c ∈ intersectionCandidates p w dirs, c.1 = w := by
  intro c hc
  unfold intersectionCandidates at hc
  rcases List.mem_flatMap.mp hc with ⟨pw, _, hc2⟩
  unfold candidatesFor at hc2
  rcases List.mem_flatMap.mp hc2 with ⟨i, _, hc3⟩
  rcases List.mem_flatMap.mp hc3 with ⟨j, _, hc4⟩
  exact pairCandidate_word c hc4

theorem processWord_inv1 {p : Puzzle} {w : List Char} {rng : Rng}
    {widx k : Nat} (hI : Inv1 p) : Inv1 (processWord p w rng widx k).1 := by
  simp only [processWord]
  split
  · exact hI
  · split
    · split
      · rename_i sx sy d kk u heq
        have hsome : (randTrials p w (possibleDirections p w) rng.stream
            (trialBudget p) k).1 = some (sx, sy, d) := by rw [heq]
        exact place_inv1 hI (randTrials_some _ _ hsome)
      · exact hI
    · split
      · rename_i q heq
        rcases tryPlacements_elim _ heq with ⟨c, hm, hcp, hq⟩
        exact hq ▸ place_inv1 hI hcp
      · split
        · rename_i sx sy d kk u heq
          have hsome : (randTrials p w (possibleDirections p w) rng.stream
              (trialBudget p) k).1 = some (sx, sy, d) := by rw [heq]
          exact place_inv1 hI (randTrials_some _ _ hsome)
        · exact hI

theorem processWord_inv2 {p : Puzzle} {w : List Char} {rng : Rng}
    {widx k : Nat} (hI : Inv2 p) (hsh : ShuffleOK rng)
    (hlet : ∀ c ∈ w, c ≠ '#') : Inv2 (processWord p w rng widx k).1 := by
  simp only [processWord]
  split
  · exact hI
  · split
    · split
      · rename_i sx sy d kk u heq
        have hsome : (randTrials p w (possibleDirections p w) rng.stream
            (trialBudget p) k).1 = some (sx, sy, d) := by rw [heq]
        exact place_inv2 hI hlet (randTrials_some _ _ hsome)
      · exact hI
    · split
      · rename_i q heq
        rcases tryPlacements_elim _ heq with ⟨c, hm, hcp, hq⟩
        have hcw : c.1 = w := intersectionCandidates_word c (hsh _ _ _ hm)
        have hlet2 : ∀ ch ∈ c.1, ch ≠ '#' := by rw [hcw]; exact hlet
        exact hq ▸ place_inv2 hI hlet2 hcp
      · split
        · rename_i sx sy d kk u heq
          have hsome : (randTrials p w (possibleDirections p w) rng.stream
              (trialBudget p) k).1 = some (sx, sy, d) := by rw [heq]
          exact place_inv2 hI hlet (randTrials_some _ _ hsome)
        · exact hI

theorem runWords_inv1 {rng : Rng} : ∀ (ws : List (List Char)) (p : Puzzle)
    (widx k : Nat), Inv1 p → Inv1 (runWords rng p ws widx k).1 := by
  intro ws
  induction ws with
  | nil => intro p widx k hI; exact hI
  | cons w rest ih =>
    intro p widx k hI
    rw [runWords]
    exact ih _ _ _ (processWord_inv1 hI)

theorem runWords_inv2 {rng : Rng} (hsh : ShuffleOK rng) :
    ∀ (ws : List (List Char)) (p : Puzzle) (widx k : Nat),
    (∀ w ∈ ws, ∀ c ∈ w, c ≠ '#') → Inv2 p →
    Inv2 (runWords rng p ws widx k).1 := by
  intro ws
  induction ws with
  | nil => intro p widx k _ hI; exact hI
  | cons w rest ih =>
    intro p widx k hws hI
    rw [runWords]
    exact ih _ _ _ (fun v hv => hws v (List.mem_cons_of_mem _ hv))
      (processWord_inv2 hI hsh (hws w (List.mem_cons_self _ _)))

/-! ### The invariants hold initially, and sorting keeps the word set -/

theorem initInv_inv1 {p : Puzzle} (h : initInv p) : Inv1 p := by
  obtain ⟨hpl, hg⟩ := h
  refine ⟨by rw [hg]; exact dims_mkGrid _ _, ?_, ?_⟩
  · intro x y hne
    rw [hg, getCell_mkGrid] at hne
    simp at hne
  · intro i hi0 hilen
    rw [hpl] at hilen
    simp at hilen

theorem initInv_inv2 {p : Puzzle} (h : initInv p) : Inv2 p := by
  obtain ⟨hpl, hg⟩ := h
  refine ⟨by rw [hg]; exact dims_mkGrid _ _, ?_, ?_, ?_⟩
  · intro x y hne
    rw [hg, getCell_mkGrid] at hne
    simp at hne
  · intro pw hmem
    rw [hpl] at hmem
    simp at hmem
  · intro pw hmem
    rw [hpl] at hmem
    simp at hmem

theorem insertDesc_mem {w : List Char} : ∀ (l : List (List Char))
    (v : List Char), v ∈ insertDesc w l → v = w ∨ v ∈ l := by
  intro l
  induction l with
  | nil =>
    intro v hv
    rw [insertDesc] at hv
    simp at hv
    exact Or.inl hv
  | cons u rest ih =>
    intro v hv
    rw [insertDesc] at hv
    by_cases hle : u.length ≤ w.length
    · rw [if_pos hle] at hv
      rcases List.mem_cons.mp hv with h | h
      · exact Or.inl h
      · exact Or.inr h
    · rw [if_neg hle] at hv
      rcases List.mem_cons.mp hv with h | h
      · exact Or.inr (by rw [h]; exact List.mem_cons_self _ _)
      · rcases ih v h with h2 | h2
        · exact Or.inl h2
        · exact Or.inr (List.mem_cons_of_mem _ h2)

theorem sortWords_mem : ∀ (ws : List (List Char)) (v : List Char),
    v ∈ sortWords ws → v ∈ ws := by
  intro ws
  induction ws with
  | nil =>
    intro v hv
    rw [sortWords] at hv
    exact hv
  | cons w rest ih =>
    intro v hv
    rw [sortWords] at hv
    rcases insertDesc_mem _ v hv with h | h
    · rw [h]; exact List.mem_cons_self _ _
    · exact List.mem_cons_of_mem _ (ih v h)

/-! ### Bounded loops and atomicity helpers -/

theorem randTrials_iters_le {p : Puzzle} {w : List Char} {dirs : List String}
    {r : Nat → Nat} : ∀ (fuel k : Nat),
    (randTrials p w dirs r fuel k).2.2 ≤ fuel := by
  intro fuel
  induction fuel with
  | zero => intro k; rw [randTrials]
  | succ n ih =>
    intro k
    simp only [randTrials]
    split
    · split
      · exact Nat.succ_le_succ (ih (k + 1))
      · split
        · show 1 ≤ n + 1
          omega
        · exact Nat.succ_le_succ (ih (k + 3))
    · split
      · exact Nat.succ_le_succ (ih (k + 1))
      · split
        · show 1 ≤ n + 1
          omega
        · exact Nat.succ_le_succ (ih (k + 3))

theorem cg_flatMap_length_le {α β : Type} (f : α → List β) (n : Nat)
    (h : ∀ a, (f a).length ≤ n) : ∀ l : List α,
    (l.flatMap f).length ≤ l.length * n := by
  intro l
  induction l with
  | nil => simp
  | cons a rest ih =>
    rw [List.flatMap_cons, List.length_append, List.length_cons]
    calc (f a).length + (rest.flatMap f).length
        ≤ n + rest.length * n := Nat.add_le_add (h a) ih
      _ = (rest.length + 1) * n := by ring

theorem pairCandidate_length_le {p : Puzzle} {w : List Char}
    {dirs : List String} {pw : PlacedWord} (i j : Nat) :
    (pairCandidate p w dirs pw i j).length ≤ 1 := by
  simp only [pairCandidate]
  split_ifs <;> simp

theorem processWord_cases (p : Puzzle) (w : List Char) (rng : Rng)
    (widx k : Nat) :
    (processWord p w rng widx k).1 = p ∨
    ∃ w2 sx sy d, (processWord p w rng widx k).1 = placeWord p w2 sx sy d := by
  simp only [processWord]
  split
  · exact Or.inl rfl
  · split
    · split
      · rename_i sx sy d kk u heq
        exact Or.inr ⟨w, sx.toNat, sy.toNat, d, rfl⟩
      · exact Or.inl rfl
    · split
      · rename_i q heq
        rcases tryPlacements_elim _ heq with ⟨c, _, _, hq⟩
        exact Or.inr ⟨c.1, c.2.1.toNat, c.2.2.1.toNat, c.2.2.2, hq⟩
      · split
        · rename_i sx sy d kk u heq
          exact Or.inr ⟨w, sx.toNat, sy.toNat, d, rfl⟩
        · exact Or.inl rfl

theorem mkPuzzle_width (w h : Nat) : (mkPuzzle w h).width = w := rfl

theorem mkPuzzle_height (w h : Nat) : (mkPuzzle w h).height = h := rfl

/-! ### Concrete fixtures used by the witnesses -/

/-- An oracle: the all-zero stream, the identity shuffle. -/
def rng0 : Rng := ⟨fun _ => 0, fun _ l => l⟩

/-- A fresh five-by-five puzzle with two pending crossing words. -/
def cW1 : Puzzle := { mkPuzzle 5 5 with words := [['A','B'], ['B','C']] }

/-- A three-by-three puzzle whose top row starts with a placed word. -/
def cGrid3 : Puzzle :=
  { width := 3, height := 3,
    grid := [['A','B','#'], ['#','#','#'], ['#','#','#']],
    words := [], placed_words := [⟨['A','B'], 0, 0, "horizontal"⟩] }

/-- A one-by-one puzzle with a two-letter pending word (unplaceable). -/
def cTiny : Puzzle := { mkPuzzle 1 1 with words := [['A','B']] }

/-! ### The claims -/

/-- C1.  Connectivity: for every puzzle in its initial state and every
randomness oracle, after `generate_puzzle` completes every placed word except
the first shares at least one grid cell with some previously placed word
(`_can_place_word` rejects zero-intersection candidates whenever
`placed_words` is non-empty, including candidates of the random fallback
loop, while the first word is accepted with zero intersections). -/
theorem generate_connectivity (p0 : Puzzle) (rng : Rng) (h : initInv p0) :
    connected (generatePuzzle p0 rng) := by
  have h1 : Inv1 { p0 with words := sortWords p0.words } :=
    initInv_inv1 ⟨h.1, h.2⟩
  exact (runWords_inv1 (sortWords p0.words) _ 0 0 h1).2.2

theorem generate_connectivity_witness :
    initInv cW1 ∧ connected (generatePuzzle cW1 rng0) :=
  ⟨⟨rfl, rfl⟩, generate_connectivity cW1 rng0 ⟨rfl, rfl⟩⟩

/-- C2.  Consistency / no silent overwrite: on letter words, at each step of
the generation and at the end, every non-empty cell lies in the span of at
least one `placed_words` entry whose character there matches the cell, every
placed word's span holds exactly its own characters, and any two placed
words covering a common cell imply the identical character there. -/
theorem generate_consistency (p0 : Puzzle) (rng : Rng) (h0 : initInv p0)
    (hsh : ShuffleOK rng) (hlet : lettersOnly p0.words) :
    (∀ n, covered (genStateAfter p0 rng n) ∧ agrees (genStateAfter p0 rng n)) ∧
    covered (generatePuzzle p0 rng) ∧ agrees (generatePuzzle p0 rng) ∧
    (∀ pw1 ∈ (generatePuzzle p0 rng).placed_words,
      ∀ pw2 ∈ (generatePuzzle p0 rng).placed_words, ∀ x y,
      coversCell pw1 x y → coversCell pw2 x y →
      charAt pw1 x y = charAt pw2 x y) := by
  have hws : ∀ w ∈ sortWords p0.words, ∀ c ∈ w, c ≠ '#' :=
    fun w hw => hlet w (sortWords_mem _ w hw)
  have h2 : Inv2 { p0 with words := sortWords p0.words } :=
    initInv_inv2 ⟨h0.1, h0.2⟩
  have hfull : Inv2 (generatePuzzle p0 rng) :=
    runWords_inv2 hsh (sortWords p0.words) _ 0 0 hws h2
  refine ⟨?_, hfull.2.1, hfull.2.2.1, ?_⟩
  · intro n
    have hpart : Inv2 (genStateAfter p0 rng n) :=
      runWords_inv2 hsh ((sortWords p0.words).take n) _ 0 0
        (fun w hw => hws w (List.take_subset n _ hw)) h2
    exact ⟨hpart.2.1, hpart.2.2.1⟩
  · intro pw1 hm1 pw2 hm2 x y hc1 hc2
    have ha := hfull.2.2.1
    rw [← ha pw1 hm1 x y hc1]
    exact ha pw2 hm2 x y hc2

theorem generate_consistency_witness :
    initInv cW1 ∧ ShuffleOK rng0 ∧ lettersOnly cW1.words ∧
    (covered (generatePuzzle cW1 rng0) ∧ agrees (generatePuzzle cW1 rng0)) := by
  have hres := generate_consistency cW1 rng0 ⟨rfl, rfl⟩
    (fun _ _ _ hh => hh) (by decide)
  exact ⟨⟨rfl, rfl⟩, fun _ _ _ hh => hh, by decide, hres.2.1, hres.2.2.1⟩

theorem fits_and_no_direction_false (p : Puzzle) (wu : List Char) :
    (wordFits p wu && (possibleDirections p wu).isEmpty) = false := by
  by_cases h1 : wu.length ≤ p.width
  · by_cases h2 : wu.length ≤ p.height <;>
      simp [wordFits, possibleDirections, h1, h2]
  · by_cases h2 : wu.length ≤ p.height <;>
      simp [wordFits, possibleDirections, h1, h2]

/-- The situation claimed reachable: some puzzle and some word that passes
`add_word`'s input-time fit check yet is eligible for no orientation at
generation time. -/
def geomImpossibleReachable : Prop :=
  ∃ (p : Puzzle) (wu : List Char),
    wordFits p wu = true ∧ possibleDirections p wu = []

/-- C3, counterexample: the claimed situation is impossible — no word can
both pass `add_word`'s input-time fit check and be eligible for neither
orientation at generation time, because the two conditions are exact
complements (`len ≤ width or len ≤ height`). -/
theorem no_geometrically_impossible : ¬geomImpossibleReachable := by
  rintro ⟨p, wu, hfits, hdirs⟩
  have hx := fits_and_no_direction_false p wu
  rw [hfits, hdirs] at hx
  simp at hx

/-- C3, amended: every word that passes `add_word`'s input-time check is
eligible for at least one orientation at generation time, so the
`GeometricallyImpossible` skip branch of `generate_puzzle` is unreachable
for words added through `add_word`, whether or not width equals height. -/
theorem accepted_word_has_direction (p : Puzzle) (wu : List Char)
    (h : wordFits p wu = true) : possibleDirections p wu ≠ [] := by
  simp only [wordFits, Bool.or_eq_true, decide_eq_true_eq] at h
  unfold possibleDirections
  intro hcon
  rcases List.append_eq_nil.mp hcon with ⟨ha, hb⟩
  rcases h with h | h
  · rw [if_pos h] at ha
    simp at ha
  · rw [if_pos h] at hb
    simp at hb

theorem accepted_word_has_direction_witness :
    wordFits (mkPuzzle 5 2) ['A','B','C'] = true ∧
    possibleDirections (mkPuzzle 5 2) ['A','B','C'] ≠ [] :=
  ⟨by decide, accepted_word_has_direction (mkPuzzle 5 2) ['A','B','C'] (by decide)⟩

/-- C4.  Termination with a hard iteration budget: each random-trial loop of
`generate_puzzle` (first word and fallback, both run with the budget
`width * height * 50`) executes at most `width * height * 50` iterations,
and the candidate-enumeration loops are bounded by the product of the word
lengths involved; the whole generation is a structurally terminating
function of its input. -/
theorem generate_trial_budget (p : Puzzle) (w : List Char) (dirs : List String)
    (r : Nat → Nat) (k : Nat) (pw : PlacedWord) :
    (randTrials p w dirs r (trialBudget p) k).2.2 ≤ p.width * p.height * 50 ∧
    (candidatesFor p w dirs pw).length ≤ w.length * pw.word.length := by
  constructor
  · exact randTrials_iters_le (trialBudget p) k
  · unfold candidatesFor
    have hinner : ∀ i, ((List.range pw.word.length).flatMap
        (pairCandidate p w dirs pw i)).length ≤ pw.word.length := by
      intro i
      have hx := cg_flatMap_length_le (pairCandidate p w dirs pw i) 1
        (fun j => pairCandidate_length_le i j) (List.range pw.word.length)
      simpa using hx
    have hx := cg_flatMap_length_le _ pw.word.length hinner (List.range w.length)
    simpa using hx

/-- C5.  Atomicity on placement failure: during `generate_puzzle`, a word
whose processing leaves `placed_words` unchanged leaves the whole puzzle
state (grid included) exactly as it was, and the word loop simply continues
with the remaining words from that state. -/
theorem generate_unplaced_atomic (p : Puzzle) (w : List Char) (rng : Rng)
    (widx k : Nat)
    (h : (processWord p w rng widx k).1.placed_words = p.placed_words) :
    (processWord p w rng widx k).1 = p ∧
    ∀ rest, runWords rng p (w :: rest) widx k =
      runWords rng (processWord p w rng widx k).1 rest (widx + 1)
        (processWord p w rng widx k).2 := by
  constructor
  · rcases processWord_cases p w rng widx k with hid | ⟨w2, sx, sy, d, hpl⟩
    · exact hid
    · exfalso
      rw [hpl, placeWord_placed] at h
      have hlen := congrArg List.length h
      simp at hlen
  · intro rest
    rfl

theorem generate_unplaced_atomic_witness :
    (processWord cTiny ['A','B'] rng0 0 0).1.placed_words =
      cTiny.placed_words ∧
    (processWord cTiny ['A','B'] rng0 0 0).1 = cTiny :=
  ⟨by decide, (generate_unplaced_atomic cTiny ['A','B'] rng0 0 0 (by decide)).1⟩

/-- C6.  Input-time rejection of over-long words: `add_word` appends the
uppercased word to the pending list exactly when its length is at most
`max(width, height)` (equivalently, at most the width or at most the
height); otherwise every field of the puzzle is left unchanged and no
exception is raised (the model is a total function). -/
theorem addWord_spec (p : Puzzle) (word : String) :
    ((addWord p word).words =
      if word.toUpper.data.length ≤ max p.width p.height
      then p.words ++ [word.toUpper.data] else p.words) ∧
    (addWord p word).width = p.width ∧ (addWord p word).height = p.height ∧
    (addWord p word).grid = p.grid ∧
    (addWord p word).placed_words = p.placed_words := by
  by_cases h : wordFits p word.toUpper.data = true
  · have hmax : word.toUpper.data.length ≤ max p.width p.height := by
      simp only [wordFits, Bool.or_eq_true, decide_eq_true_eq] at h
      exact le_max_iff.mpr h
    simp only [addWord, if_pos h, if_pos hmax]
    simp
  · have hmax : ¬(word.toUpper.data.length ≤ max p.width p.height) := by
      simp only [wordFits, Bool.or_eq_true, decide_eq_true_eq] at h
      rw [le_max_iff]
      exact h
    simp only [addWord, if_neg h, if_neg hmax]
    simp

/-- C10.  For nonnegative start coordinates and any direction string other
than the two real ones, `_can_place_word` performs no bounds, conflict or
adjacency check and returns `True` exactly when `placed_words` is empty. -/
theorem canPlace_unknown_direction (p : Puzzle) (w : List Char) (sx sy : Int)
    (d : String) (hx : 0 ≤ sx) (hy : 0 ≤ sy) (hd1 : d ≠ "horizontal")
    (hd2 : d ≠ "vertical") :
    canPlaceWord p w sx sy d = p.placed_words.isEmpty := by
  rw [canPlace_other hd1 hd2 hx hy, connectOK_zero]

theorem canPlace_unknown_direction_witness :
    canPlaceWord (mkPuzzle 2 2) ['A'] 0 0 "diagonal" =
      (mkPuzzle 2 2).placed_words.isEmpty :=
  canPlace_unknown_direction (mkPuzzle 2 2) ['A'] 0 0 "diagonal"
    (by decide) (by decide) (by decide) (by decide)

/-- Introduction form of the validator, horizontal case. -/
theorem canPlace_h_intro {p : Puzzle} {w : List Char} {a b cnt : Nat}
    (hbd : a + w.length ≤ p.width)
    (hscan : scanH p w a b = some cnt)
    (hb1 : ¬(0 < a ∧ getCell p.grid b (a - 1) ≠ '#'))
    (hb2 : ¬(a + w.length < p.width ∧ getCell p.grid b (a + w.length) ≠ '#'))
    (hok : connectOK p cnt = true) :
    canPlaceWord p w a b "horizontal" = true := by
  rw [canPlaceWord, if_neg (by omega), if_pos rfl]
  simp only [Int.toNat_natCast]
  rw [if_neg (by omega), hscan]
  simp only []
  rw [if_neg hb1, if_neg hb2]
  exact hok

/-- Introduction form of the validator, vertical case. -/
theorem canPlace_v_intro {p : Puzzle} {w : List Char} {a b cnt : Nat}
    (hbd : b + w.length ≤ p.height)
    (hscan : scanV p w a b = some cnt)
    (hb1 : ¬(0 < b ∧ getCell p.grid (b - 1) a ≠ '#'))
    (hb2 : ¬(b + w.length < p.height ∧ getCell p.grid (b + w.length) a ≠ '#'))
    (hok : connectOK p cnt = true) :
    canPlaceWord p w a b "vertical" = true := by
  rw [canPlaceWord, if_neg (by omega), if_neg (by decide), if_pos rfl]
  simp only [Int.toNat_natCast]
  rw [if_neg (by omega), hscan]
  simp only []
  rw [if_neg hb1, if_neg hb2]
  exact hok

/-- C7.  Perpendicular-touch rejection: if some cell of the proposed span is
currently empty but an in-bounds perpendicular neighbour of it holds a
letter (above or below for a horizontal placement, left or right for a
vertical one), `_can_place_word` returns `False` — two words can never run
parallel touching side by side without intersecting. -/
theorem perpendicular_touch (p : Puzzle) (w : List Char) (a b i : Nat)
    (hi : i < w.length) :
    ((getCell p.grid b (a + i) = '#' ∧
      ((0 < b ∧ getCell p.grid (b - 1) (a + i) ≠ '#') ∨
        (b < p.height - 1 ∧ getCell p.grid (b + 1) (a + i) ≠ '#'))) →
      canPlaceWord p w a b "horizontal" = false) ∧
    ((getCell p.grid (b + i) a = '#' ∧
      ((0 < a ∧ getCell p.grid (b + i) (a - 1) ≠ '#') ∨
        (a < p.width - 1 ∧ getCell p.grid (b + i) (a + 1) ≠ '#'))) →
      canPlaceWord p w a b "vertical" = false) := by
  constructor
  · rintro ⟨hcell, hnb⟩
    cases hcb : canPlaceWord p w a b "horizontal" with
    | false => rfl
    | true =>
      exfalso
      obtain ⟨_, _, _, ⟨cnt, hscan, _⟩, _, _⟩ := canPlace_h_elim hcb
      simp only [Int.toNat_natCast] at hscan
      have hsnd := (scanH_sound w a b cnt hscan i hi).2.2 hcell
      rcases hnb with hup | hdn
      · exact hsnd.1 hup
      · exact hsnd.2 hdn
  · rintro ⟨hcell, hnb⟩
    cases hcb : canPlaceWord p w a b "vertical" with
    | false => rfl
    | true =>
      exfalso
      obtain ⟨_, _, _, ⟨cnt, hscan, _⟩, _, _⟩ := canPlace_v_elim hcb
      simp only [Int.toNat_natCast] at hscan
      have hsnd := (scanV_sound w a b cnt hscan i hi).2.2 hcell
      rcases hnb with hlf | hrt
      · exact hsnd.1 hlf
      · exact hsnd.2 hrt

theorem perpendicular_touch_witness :
    canPlaceWord cGrid3 ['C','D'] 0 1 "horizontal" = false ∧
    canPlaceWord cGrid3 ['C','D'] 2 0 "vertical" = false :=
  ⟨(perpendicular_touch cGrid3 ['C','D'] 0 1 0 (by decide)).1
      ⟨by decide, Or.inl ⟨by decide, by decide⟩⟩,
    (perpendicular_touch cGrid3 ['C','D'] 2 0 0 (by decide)).2
      ⟨by decide, Or.inl ⟨by decide, by decide⟩⟩⟩

/-- C8.  No accidental word lengthening: a horizontal candidate is rejected
when the cell just before its start (column `start_x - 1`, when
`start_x > 0`) or just after its end (column `start_x + len(word)`, when
inside the grid) holds a letter; symmetrically along the vertical axis. -/
theorem no_lengthening (p : Puzzle) (w : List Char) (a b : Nat) :
    (((0 < a ∧ getCell p.grid b (a - 1) ≠ '#') ∨
      (a + w.length < p.width ∧ getCell p.grid b (a + w.length) ≠ '#')) →
      canPlaceWord p w a b "horizontal" = false) ∧
    (((0 < b ∧ getCell p.grid (b - 1) a ≠ '#') ∨
      (b + w.length < p.height ∧ getCell p.grid (b + w.length) a ≠ '#')) →
      canPlaceWord p w a b "vertical" = false) := by
  constructor
  · intro hb2
    cases hcb : canPlaceWord p w a b "horizontal" with
    | false => rfl
    | true =>
      exfalso
      obtain ⟨_, _, _, _, hx1, hx2⟩ := canPlace_h_elim hcb
      simp only [Int.toNat_natCast] at hx1 hx2
      rcases hb2 with h | h
      · exact hx1 h
      · exact hx2 h
  · intro hb2
    cases hcb : canPlaceWord p w a b "vertical" with
    | false => rfl
    | true =>
      exfalso
      obtain ⟨_, _, _, _, hx1, hx2⟩ := canPlace_v_elim hcb
      simp only [Int.toNat_natCast] at hx1 hx2
      rcases hb2 with h | h
      · exact hx1 h
      · exact hx2 h

theorem no_lengthening_witness :
    canPlaceWord cGrid3 ['C','D'] 2 0 "horizontal" = false ∧
    canPlaceWord cGrid3 ['C','D'] 0 1 "vertical" = false :=
  ⟨(no_lengthening cGrid3 ['C','D'] 2 0).1 (Or.inl ⟨by decide, by decide⟩),
    (no_lengthening cGrid3 ['C','D'] 0 1).2 (Or.inl ⟨by decide, by decide⟩)⟩

/-- C9.  Boundary exactness: on a fresh puzzle, a word of length exactly the
grid width is accepted horizontally at column 0 (in any row) and rejected
at column 1; symmetrically, a word of length exactly the grid height is
accepted vertically at row 0 (in any column) and rejected at row 1. -/
theorem boundary_exact (w h : Nat) (wh wv : List Char) (sy sx : Nat)
    (hwh : wh.length = w) (hsy : sy < h) (hwv : wv.length = h) (hsx : sx < w) :
    canPlaceWord (mkPuzzle w h) wh 0 sy "horizontal" = true ∧
    canPlaceWord (mkPuzzle w h) wh 1 sy "horizontal" = false ∧
    canPlaceWord (mkPuzzle w h) wv sx 0 "vertical" = true ∧
    canPlaceWord (mkPuzzle w h) wv sx 1 "vertical" = false := by
  refine ⟨?_, ?_, ?_, ?_⟩
  · have hacc : canPlaceWord (mkPuzzle w h) wh ((0 : Nat) : Int) sy
        "horizontal" = true := by
      apply @canPlace_h_intro (mkPuzzle w h) wh 0 sy 0
      · show 0 + wh.length ≤ w
        omega
      · exact scanH_fresh rfl wh 0 sy hsy (by show 0 + wh.length ≤ w; omega)
      · simp
      · rintro ⟨_, hcc⟩
        exact hcc (getCell_mkGrid w h sy (0 + wh.length))
      · exact connectOK_of_empty rfl 0
    exact hacc
  · rw [canPlaceWord, if_neg (by omega), if_pos rfl]
    have hc : (mkPuzzle w h).width < (1 : Int).toNat + wh.length := by
      show w < (1 : Int).toNat + wh.length
      rw [Int.toNat_one]
      omega
    rw [if_pos hc]
  · have hacc : canPlaceWord (mkPuzzle w h) wv sx ((0 : Nat) : Int)
        "vertical" = true := by
      apply @canPlace_v_intro (mkPuzzle w h) wv sx 0 0
      · show 0 + wv.length ≤ h
        omega
      · exact scanV_fresh rfl wv sx 0 hsx (by show 0 + wv.length ≤ h; omega)
      · simp
      · rintro ⟨_, hcc⟩
        exact hcc (getCell_mkGrid w h (0 + wv.length) sx)
      · exact connectOK_of_empty rfl 0
    exact hacc
  · rw [canPlaceWord, if_neg (by omega), if_neg (by decide), if_pos rfl]
    have hc : (mkPuzzle w h).height < (1 : Int).toNat + wv.length := by
      show h < (1 : Int).toNat + wv.length
      rw [Int.toNat_one]
      omega
    rw [if_pos hc]

theorem boundary_exact_witness :
    canPlaceWord (mkPuzzle 2 2) ['A','B'] 0 0 "horizontal" = true ∧
    canPlaceWord (mkPuzzle 2 2) ['A','B'] 1 0 "horizontal" = false ∧
    canPlaceWord (mkPuzzle 2 2) ['A','B'] 0 0 "vertical" = true ∧
    canPlaceWord (mkPuzzle 2 2) ['A','B'] 0 1 "vertical" = false :=
  boundary_exact 2 2 ['A','B'] ['A','B'] 0 0
    (by decide) (by decide) (by decide) (by decide)
